import Mathlib

/-!
Verification of `pyparsing/unicode.py`: named, composable sets of Unicode
codepoints (`unicode_set` and its subclasses) together with the lazy
per-class cache `_lazyclassproperty`.

Modelling conventions (shallow embedding):

* A character is its codepoint, a `Nat` (Python `chr`/`ord` are bijective and
  `sorted` on one-character strings orders by codepoint, so sortedness and
  membership transfer unchanged).
* A declared range (`_ranges` entry) is `URange`: a Python 2-tuple `(lo, hi)`
  or 1-tuple `(x,)`.  The source reads `rr[0]` and `rr[-1]`; these are
  `URange.first` and `URange.last`.
* A `unicode_set` subclass is represented by the data the walk in
  `_chars_for_ranges` actually consumes: `cls.__mro__` truncated at the
  sentinel `unicode_set` (exclusive), each entry carrying the range list that
  `getattr(cc, "_ranges", ())` resolves to for that entry.  So a definition is
  a `List (List URange)`.  Python's C3 linearisation lists every ancestor
  exactly once, which is why a diamond ancestor appears once in this list.
* The classification predicates `str.isspace`, `str.isalpha`, `str.isdigit`,
  `str.isidentifier` and the underscore-prefix test are the runtime's
  black-box character facility; the derived properties take them as `Nat →
  Bool` parameters.  `py_isspace` below is the concrete whitespace predicate
  of CPython's `str.isspace`, used for concrete evaluations.
-/

/-- A declared codepoint range: a 2-tuple `(lo, hi)` or the 1-tuple
shorthand `(x,)`. -/
inductive URange where
  | one (x : Nat)
  | two (lo hi : Nat)
deriving DecidableEq, Repr

/-- `rr[0]` in the source. -/
def URange.first : URange → Nat
  | .one x => x
  | .two lo _ => lo

/-- `rr[-1]` in the source (for a 1-tuple this is again the sole element). -/
def URange.last : URange → Nat
  | .one x => x
  | .two _ hi => hi

/-- `range(rr[0], rr[-1] + 1)` in the source: the half-open Python range from
`rr[0]` to `rr[-1] + 1`, i.e. the inclusive expansion of the declared range.
`List.range' s n` is `[s, s+1, ..., s+n-1]`. -/
def rangeChars (rr : URange) : List Nat :=
  List.range' rr.first (rr.last + 1 - rr.first)

/-- `sorted(set(ret))` in the source: the strictly ascending enumeration of
the distinct elements of `ret`.  Python's `set` collapses duplicates and
`sorted` orders ascending; we realise it as dedup followed by insertion
sort. -/
def sortedSet (l : List Nat) : List Nat :=
  List.insertionSort (· ≤ ·) l.dedup

/-- `unicode_set._chars_for_ranges`: walk `cls.__mro__` up to (and excluding)
the sentinel `unicode_set`, extend `ret` with the inclusive expansion of every
resolved range of every visited class, then return `sorted(set(ret))`.
The argument is the truncated mro together with each entry's resolved range
list, in walk order. -/
def _chars_for_ranges (mro : List (List URange)) : List Nat :=
  sortedSet ((mro.flatMap id).flatMap rangeChars)

/-- `unicode_set.printables` as written in the source:
`"".join(filter(str.isspace, cls._chars_for_ranges))` — note this KEEPS the
characters satisfying the whitespace predicate. -/
def printables (isspace : Nat → Bool) (mro : List (List URange)) : List Nat :=
  (_chars_for_ranges mro).filter isspace

/-- Modelled from the spec: `printable_characters(definition)` keeps "exactly
the characters classified as *not whitespace*" — the complement of the
whitespace predicate, as the source docstring ("all non-whitespace
characters") and the spec both state. -/
def printables_spec (isspace : Nat → Bool) (mro : List (List URange)) : List Nat :=
  (_chars_for_ranges mro).filter (fun c => ! isspace c)

/-- `unicode_set.alphas`: `"".join(filter(str.isalpha, cls._chars_for_ranges))`. -/
def alphas (isalpha : Nat → Bool) (mro : List (List URange)) : List Nat :=
  (_chars_for_ranges mro).filter isalpha

/-- `unicode_set.nums`: `"".join(filter(str.isdigit, cls._chars_for_ranges))`. -/
def nums (isdigit : Nat → Bool) (mro : List (List URange)) : List Nat :=
  (_chars_for_ranges mro).filter isdigit

/-- `unicode_set.alphanums`: `cls.alphas + cls.nums`. -/
def alphanums (isalpha isdigit : Nat → Bool) (mro : List (List URange)) : List Nat :=
  alphas isalpha mro ++ nums isdigit mro

/-- The fixed supplemental identifier character set hard-coded in
`unicode_set.identchars`: `A`–`Z`, `a`–`z`, `ª`, `µ`, `º`, the Latin-1
letters `À`–`Ö` (skipping `×` 0xD7), `Ø`–`ö` (skipping `÷` 0xF7), `ø`–`ÿ`,
and the underscore, exactly the literal string in the source. -/
def supplLatin : List Nat :=
  List.range' 0x41 26 ++ List.range' 0x61 26 ++ [0xAA, 0xB5, 0xBA] ++
    List.range' 0xC0 23 ++ List.range' 0xD8 31 ++ List.range' 0xF8 8 ++ [0x5F]

/-- `unicode_set.identchars`:
`"".join(sorted(set(filter(str.isidentifier, cls._chars_for_ranges)) | set(<supplemental literal>)))`. -/
def identchars (isidentifier : Nat → Bool) (mro : List (List URange)) : List Nat :=
  sortedSet ((_chars_for_ranges mro).filter isidentifier ++ supplLatin)

/-- The literal `set("0123456789·")` of `unicode_set.identbodychars`:
ASCII digits and U+00B7 MIDDLE DOT. -/
def digitsMiddot : List Nat :=
  List.range' 0x30 10 ++ [0xB7]

/-- `unicode_set.identbodychars`:
`identifier_chars = set(c for c in cls._chars_for_ranges if ("_" + c).isidentifier())`
then `"".join(sorted(identifier_chars | set(cls.identchars) | set("0123456789·")))`.
`isxident c` models `("_" + c).isidentifier()`. -/
def identbodychars (isidentifier isxident : Nat → Bool) (mro : List (List URange)) : List Nat :=
  sortedSet ((_chars_for_ranges mro).filter isxident ++
    identchars isidentifier mro ++ digitsMiddot)

/-- CPython `str.isspace` holds exactly on these codepoints: the ASCII
whitespace and separators `\t \n \v \f \r`, 0x1C–0x1F, space, NEL 0x85,
NBSP 0xA0, OGHAM SPACE 0x1680, the 0x2000–0x200A spaces, LS 0x2028,
PS 0x2029, NNBSP 0x202F, MMSP 0x205F and IDEOGRAPHIC SPACE 0x3000. -/
def pythonWhitespace : List Nat :=
  [0x09, 0x0A, 0x0B, 0x0C, 0x0D, 0x1C, 0x1D, 0x1E, 0x1F, 0x20, 0x85, 0xA0,
   0x1680, 0x2000, 0x2001, 0x2002, 0x2003, 0x2004, 0x2005, 0x2006, 0x2007,
   0x2008, 0x2009, 0x200A, 0x2028, 0x2029, 0x202F, 0x205F, 0x3000]

/-- The concrete `str.isspace` predicate. -/
def py_isspace (c : Nat) : Bool :=
  decide (c ∈ pythonWhitespace)

/-- `pyparsing_unicode.Latin1`: `_ranges = [(0x0020, 0x007E), (0x00A0, 0x00FF)]`;
its truncated mro is just the class itself. -/
def latin1MRO : List (List URange) :=
  [[URange.two 0x20 0x7E, URange.two 0xA0 0xFF]]

section SortedSetLemmas

theorem sortedSet_sorted_le (l : List Nat) :
    List.Sorted (· ≤ ·) (sortedSet l) :=
  List.sorted_insertionSort (· ≤ ·) l.dedup

theorem sortedSet_perm_dedup (l : List Nat) : List.Perm (sortedSet l) l.dedup :=
  List.perm_insertionSort (· ≤ ·) l.dedup

theorem sortedSet_nodup (l : List Nat) : (sortedSet l).Nodup :=
  ((sortedSet_perm_dedup l).nodup_iff).2 l.nodup_dedup

theorem mem_sortedSet {c : Nat} {l : List Nat} : c ∈ sortedSet l ↔ c ∈ l := by
  rw [(sortedSet_perm_dedup l).mem_iff, List.mem_dedup]

theorem sortedSet_sorted_lt (l : List Nat) :
    List.Sorted (· < ·) (sortedSet l) := by
  have h := (sortedSet_sorted_le l).and (sortedSet_nodup l)
  exact h.imp fun hab => lt_of_le_of_ne hab.1 hab.2

end SortedSetLemmas

theorem chars_for_ranges_sorted_lt (mro : List (List URange)) :
    List.Sorted (· < ·) (_chars_for_ranges mro) :=
  sortedSet_sorted_lt _

theorem chars_for_ranges_nodup (mro : List (List URange)) :
    (_chars_for_ranges mro).Nodup :=
  sortedSet_nodup _

set_option maxRecDepth 40000

/-- C1: the spec (and the source docstring "all non-whitespace characters in
this range") says `printables` keeps exactly the non-whitespace characters of
`_chars_for_ranges`; the source line
`"".join(filter(str.isspace, cls._chars_for_ranges))` keeps exactly the
whitespace ones (and leaves the imported `filterfalse` unused).  On
`pyparsing_unicode.Latin1` the code yields precisely the two whitespace
characters SPACE and NBSP, while the documented/spec behaviour
(`printables_spec`) contains 0x41 and not 0x20. -/
theorem c1_printables_code_bug :
    printables py_isspace latin1MRO = [0x20, 0xA0] ∧
    0x41 ∈ printables_spec py_isspace latin1MRO ∧
    0x41 ∉ printables py_isspace latin1MRO ∧
    printables_spec py_isspace latin1MRO ≠ printables py_isspace latin1MRO := by
  decide

/-- C2: `_chars_for_ranges` walks the truncated mro, expands every declared
range `[lo, hi]` inclusively, collapses duplicates and returns the characters
sorted strictly ascending by codepoint; membership is exactly "some visited
range list has a range containing the codepoint", and a definition with no
ranges anywhere in its chain yields the empty sequence, not an error. -/
theorem c2_chars_for_ranges_spec (mro : List (List URange)) :
    List.Sorted (· < ·) (_chars_for_ranges mro) ∧
    (_chars_for_ranges mro).Nodup ∧
    (∀ c, c ∈ _chars_for_ranges mro ↔
      ∃ rl ∈ mro, ∃ rr ∈ rl, rr.first ≤ c ∧ c ≤ rr.last) ∧
    ((∀ rl ∈ mro, rl = []) → _chars_for_ranges mro = []) := by
  refine ⟨chars_for_ranges_sorted_lt _, chars_for_ranges_nodup _, ?_, ?_⟩
  · intro c
    rw [_chars_for_ranges, mem_sortedSet, List.mem_flatMap]
    constructor
    · rintro ⟨rr, hrr, hc⟩
      rw [List.mem_flatMap] at hrr
      obtain ⟨rl, hrl, hrrl⟩ := hrr
      rw [rangeChars, List.mem_range'_1] at hc
      exact ⟨rl, hrl, rr, hrrl, hc.1, by omega⟩
    · rintro ⟨rl, hrl, rr, hrr, h1, h2⟩
      refine ⟨rr, List.mem_flatMap.2 ⟨rl, hrl, hrr⟩, ?_⟩
      rw [rangeChars, List.mem_range'_1]
      omega
  · intro h
    have hflat : mro.flatMap id = [] := by
      rw [List.flatMap_eq_nil_iff]
      intro rl hrl
      simpa using h rl hrl
    rw [_chars_for_ranges, hflat]
    rfl

/-- C2 witness: a chain whose classes declare only empty range lists yields
the empty character set. -/
theorem c2_chars_for_ranges_witness : _chars_for_ranges [[], []] = [] :=
  (c2_chars_for_ranges_spec [[], []]).2.2.2 (by decide)

/-- C3 counterexample: the malformed range `(0x7A, 0x41)` (lo > hi) does NOT
raise when first expanded — `range(rr[0], rr[-1] + 1)` silently yields the
empty sequence, and `_chars_for_ranges` (hence the cached value) is the empty
set; the code has no error path at all, contradicting the claimed fail-fast
behaviour. -/
theorem c3_malformed_range_counterexample :
    rangeChars (URange.two 0x7A 0x41) = [] ∧
    _chars_for_ranges [[URange.two 0x7A 0x41]] = [] := by
  decide

/-- C3 amended: a malformed range with lo > hi is silently expanded to the
empty codepoint sequence; no error is raised (the computation is total), the
range contributes nothing to `_chars_for_ranges`, and the cache is populated
with this ordinary (empty-contribution) value. -/
theorem c3_malformed_range_amended (lo hi : Nat) (l : List URange)
    (rest : List (List URange)) (h : hi < lo) :
    rangeChars (URange.two lo hi) = [] ∧
    _chars_for_ranges ((URange.two lo hi :: l) :: rest) =
      _chars_for_ranges (l :: rest) := by
  have h0 : hi + 1 - lo = 0 := by omega
  have hr : rangeChars (URange.two lo hi) = [] := by
    show List.range' lo (hi + 1 - lo) = []
    rw [h0, List.range'_zero]
  refine ⟨hr, ?_⟩
  rw [_chars_for_ranges, _chars_for_ranges]
  congr 1
  simp [List.flatMap_cons, hr]

/-- C3 amended, witness: at `(0x7A, 0x41)` prepended to a class declaring
`(0x41, 0x43)` the malformed range is dropped silently. -/
theorem c3_malformed_range_witness :
    rangeChars (URange.two 0x7A 0x41) = [] ∧
    _chars_for_ranges [[URange.two 0x7A 0x41, URange.two 0x41 0x43]] =
      _chars_for_ranges [[URange.two 0x41 0x43]] :=
  c3_malformed_range_amended 0x7A 0x41 [URange.two 0x41 0x43] [] (by decide)

/-- The diamond lattice of the spec: grandparent `G` with range
`(0x30, 0x39)`, parents `P1` (own `(0x41, 0x5A)`) and `P2` (own
`(0x61, 0x7A)`) both extending `G`, child `C(P1, P2)` with no own `_ranges`.
Python's C3 mro of `C` is `[C, P1, P2, G, unicode_set]`, each ancestor once;
`getattr(C, "_ranges")` resolves to `P1`'s list, so the walk reads it for the
`C` entry as well. -/
def diamondMRO : List (List URange) :=
  [[URange.two 0x41 0x5A], [URange.two 0x41 0x5A], [URange.two 0x61 0x7A],
   [URange.two 0x30 0x39]]

/-- C4: characters are never duplicated by multiple inheritance paths: the
output of `_chars_for_ranges` is duplicate-free for every definition, and in
the concrete diamond each of the ten digits contributed by the shared
grandparent occurs exactly once. -/
theorem c4_diamond_once :
    (∀ mro : List (List URange), (_chars_for_ranges mro).Nodup) ∧
    ((List.range' 0x30 10).all
      (fun d => (_chars_for_ranges diamondMRO).count d == 1)) = true :=
  ⟨fun mro => chars_for_ranges_nodup mro, by decide⟩

/-- Rewriting the 1-tuple shorthand `(x,)` into `(x, x)`. -/
def URange.desugar : URange → URange
  | .one x => .two x x
  | .two lo hi => .two lo hi

/-- Rewriting every 1-tuple of a definition into its 2-tuple form. -/
def desugarMRO (mro : List (List URange)) : List (List URange) :=
  mro.map (List.map URange.desugar)

theorem rangeChars_desugar (rr : URange) :
    rangeChars rr.desugar = rangeChars rr := by
  cases rr <;> rfl

theorem chars_for_ranges_desugar (mro : List (List URange)) :
    _chars_for_ranges (desugarMRO mro) = _chars_for_ranges mro := by
  rw [_chars_for_ranges, _chars_for_ranges]
  congr 1
  induction mro with
  | nil => rfl
  | cons rl rest ih =>
      simp only [desugarMRO, List.map_cons, List.flatMap_cons, id,
        List.flatMap_append] at *
      rw [ih]
      congr 1
      induction rl with
      | nil => rfl
      | cons rr rs ihr =>
          simp only [List.map_cons, List.flatMap_cons, rangeChars_desugar, ihr]

/-- C5: declaring the 1-tuple `(x,)` is indistinguishable from declaring
`(x, x)`: rewriting every 1-tuple into its 2-tuple form (anywhere in the
chain) leaves every derived property unchanged — `_chars_for_ranges`,
`printables`, `alphas`, `nums`, `alphanums`, `identchars` and
`identbodychars`. -/
theorem c5_one_tuple_desugar
    (isspace isalpha isdigit isidentifier isxident : Nat → Bool)
    (mro : List (List URange)) :
    _chars_for_ranges (desugarMRO mro) = _chars_for_ranges mro ∧
    printables isspace (desugarMRO mro) = printables isspace mro ∧
    alphas isalpha (desugarMRO mro) = alphas isalpha mro ∧
    nums isdigit (desugarMRO mro) = nums isdigit mro ∧
    alphanums isalpha isdigit (desugarMRO mro) = alphanums isalpha isdigit mro ∧
    identchars isidentifier (desugarMRO mro) = identchars isidentifier mro ∧
    identbodychars isidentifier isxident (desugarMRO mro) =
      identbodychars isidentifier isxident mro := by
  have h := chars_for_ranges_desugar mro
  exact ⟨h, by simp [printables, h], by simp [alphas, h], by simp [nums, h],
    by simp [alphanums, alphas, nums, h], by simp [identchars, h],
    by simp [identbodychars, identchars, h]⟩

/-- C6: every identifier-start character is an identifier-body character:
`identbodychars` is the sorted union of a set that includes `set(cls.identchars)`
as one operand, so membership in `identchars` implies membership in
`identbodychars`, for any classification predicates and any definition. -/
theorem c6_identchars_subset (isidentifier isxident : Nat → Bool)
    (mro : List (List URange)) (c : Nat)
    (h : c ∈ identchars isidentifier mro) :
    c ∈ identbodychars isidentifier isxident mro := by
  rw [identbodychars, mem_sortedSet]
  exact List.mem_append_left _ (List.mem_append_right _ h)

/-- C6 witness: the underscore, an `identchars` member even for the empty
definition, is an `identbodychars` member. -/
theorem c6_identchars_subset_witness :
    0x5F ∈ identbodychars (fun _ => false) (fun _ => false) [] :=
  c6_identchars_subset (fun _ => false) (fun _ => false) [] 0x5F (by decide)

/-- C7: `alphanums` is literally `cls.alphas + cls.nums`: the concatenation,
not re-sorted and not deduplicated, and taking / dropping `alphas.length`
recovers the two halves unchanged. -/
theorem c7_alphanums_concat (isalpha isdigit : Nat → Bool)
    (mro : List (List URange)) :
    alphanums isalpha isdigit mro = alphas isalpha mro ++ nums isdigit mro ∧
    (alphanums isalpha isdigit mro).take (alphas isalpha mro).length =
      alphas isalpha mro ∧
    (alphanums isalpha isdigit mro).drop (alphas isalpha mro).length =
      nums isdigit mro :=
  ⟨rfl, List.take_left _ _, List.drop_left _ _⟩

/-- C9: regardless of the declared ranges (even a chain declaring none) and of
the classification predicates, `identchars` contains the whole hard-coded
supplemental set (52 ASCII letters, `ª µ º`, the Latin-1 letters `À`–`ÿ`
excluding `×` and `÷`, and `_`) — in particular it is non-empty — and
`identbodychars` additionally contains the ASCII digits 0–9 and U+00B7
MIDDLE DOT. -/
theorem c9_identchars_supplement (isidentifier isxident : Nat → Bool)
    (mro : List (List URange)) :
    (∀ c ∈ supplLatin, c ∈ identchars isidentifier mro) ∧
    identchars isidentifier mro ≠ [] ∧
    (∀ c ∈ digitsMiddot, c ∈ identbodychars isidentifier isxident mro) := by
  have hs : ∀ c ∈ supplLatin, c ∈ identchars isidentifier mro := by
    intro c hc
    rw [identchars, mem_sortedSet]
    exact List.mem_append_right _ hc
  refine ⟨hs, ?_, ?_⟩
  · intro hnil
    have h5F := hs 0x5F (by decide)
    rw [hnil] at h5F
    exact List.not_mem_nil _ h5F
  · intro c hc
    rw [identbodychars, mem_sortedSet]
    exact List.mem_append_right _ hc

/-- C9 witness: on the empty definition with trivial predicates, the letter
`A` is in `identchars`, `identchars` is non-empty, and the middle dot is in
`identbodychars`. -/
theorem c9_identchars_supplement_witness :
    0x41 ∈ identchars (fun _ => false) [] ∧
    identchars (fun _ => false) [] ≠ [] ∧
    0xB7 ∈ identbodychars (fun _ => false) (fun _ => false) [] :=
  ⟨(c9_identchars_supplement (fun _ => false) (fun _ => false) []).1 0x41
      (by decide),
   (c9_identchars_supplement (fun _ => false) (fun _ => false) []).2.1,
   (c9_identchars_supplement (fun _ => false) (fun _ => false) []).2.2 0xB7
      (by decide)⟩

/-- C10: `printables`, `alphas` and `nums` are filters of
`_chars_for_ranges`, hence order-preserving subsequences of it, and therefore
each is strictly sorted by codepoint and duplicate-free. -/
theorem c10_filtered_subsequence (isspace isalpha isdigit : Nat → Bool)
    (mro : List (List URange)) :
    (printables isspace mro).Sublist (_chars_for_ranges mro) ∧
    (alphas isalpha mro).Sublist (_chars_for_ranges mro) ∧
    (nums isdigit mro).Sublist (_chars_for_ranges mro) ∧
    List.Sorted (· < ·) (printables isspace mro) ∧
    (printables isspace mro).Nodup ∧
    List.Sorted (· < ·) (alphas isalpha mro) ∧
    (alphas isalpha mro).Nodup ∧
    List.Sorted (· < ·) (nums isdigit mro) ∧
    (nums isdigit mro).Nodup := by
  have hs := chars_for_ranges_sorted_lt mro
  have hn := chars_for_ranges_nodup mro
  refine ⟨List.filter_sublist _, List.filter_sublist _, List.filter_sublist _,
    ?_, ?_, ?_, ?_, ?_, ?_⟩ <;>
    first
      | exact List.Pairwise.sublist (List.filter_sublist _) hs
      | exact hn.sublist (List.filter_sublist _)

namespace LazyCache

/-!
Embedding of `_lazyclassproperty.__get__`.  Classes are identities (`Nat`);
dict objects live on an explicit heap so that Python's `is` (object identity)
is identity of heap indices.  `binding c` models `c.__dict__["_intern"]`:
the dict identity bound *directly* on class `c`, `none` when `c`'s own
`__dict__` has no `_intern` (attribute lookup then walks the mro).
-/

/-- A value stored in a cache: a computed character string. -/
abbrev Value := List Nat

/-- A Python dict used as an `_intern` cache: attribute name to value. -/
abbrev Dict := List (String × Value)

/-- `d[a]`-style dict lookup. -/
def dlookup (a : String) : Dict → Option Value
  | [] => none
  | (k, v) :: rest => if k = a then some v else dlookup a rest

theorem dlookup_cons (a k : String) (v : Value) (dict : Dict) :
    dlookup a ((k, v) :: dict) = if k = a then some v else dlookup a dict :=
  rfl

/-- The process state: the heap of dict objects and each class's own
`_intern` slot; `nextId` is the next fresh object identity. -/
structure PyState where
  heap : Nat → Option Dict
  binding : Nat → Option Nat
  nextId : Nat

/-- The class lattice and the descriptor computations: `mroOf c` is Python's
`c.__mro__` (class identities, starting with `c` itself) and `compute a c` is
`self.fn(cls)` for the descriptor of attribute `a` invoked on class `c`
(pure and determined by its arguments). -/
structure LazyEnv where
  mroOf : Nat → List Nat
  compute : String → Nat → Value

/-- Attribute lookup of `_intern` along an mro: the first class with an own
binding, together with the identity of its dict (`getattr(cls, "_intern")`
returns the dict, `hasattr` tests this for `isSome`). -/
def resolveIntern (st : PyState) : List Nat → Option (Nat × Nat)
  | [] => none
  | a :: rest =>
    match st.binding a with
    | some d => some (a, d)
    | none => resolveIntern st rest

/-- The guard of `__get__`: `not hasattr(cls, "_intern") or
any(cls._intern is getattr(superclass, "_intern", []) for superclass in
cls.__mro__[1:])`.  Dict identity is heap-index identity; the `getattr`
default `[]` is a fresh object identical to nothing, so an unresolved
superclass contributes `false`. -/
def needFresh (env : LazyEnv) (st : PyState) (c : Nat) : Bool :=
  match resolveIntern st (env.mroOf c) with
  | none => true
  | some (_, d) =>
    ((env.mroOf c).drop 1).any fun sc =>
      match resolveIntern st (env.mroOf sc) with
      | some (_, d2) => d == d2
      | none => false

/-- `cls._intern = {}`: allocate a fresh empty dict and bind it directly on
`c`'s `__dict__`. -/
def bindFresh (st : PyState) (c : Nat) : PyState where
  heap := fun i => if i = st.nextId then some [] else st.heap i
  binding := fun x => if x = c then some st.nextId else st.binding x
  nextId := st.nextId + 1

/-- The body after the guard:
`if attrname not in cls._intern: cls._intern[attrname] = self.fn(cls)`
followed by `return cls._intern[attrname]`, acting on the dict object that
`cls._intern` resolves to (identity `d`). -/
def writeStep (env : LazyEnv) (a : String) (st1 : PyState) (c d : Nat) :
    Value × PyState :=
  match dlookup a ((st1.heap d).getD []) with
  | some v => (v, st1)
  | none =>
    (env.compute a c,
     { st1 with
        heap := fun i =>
          if i = d then some ((a, env.compute a c) :: (st1.heap d).getD [])
          else st1.heap i })

/-- Dispatch on where `cls._intern` resolves (after the guard it always
resolves; the `none` branch is unreachable from a well-formed mro and stands
for Python's `AttributeError`). -/
def lazyGetAux (env : LazyEnv) (a : String) (st1 : PyState) (c : Nat) :
    Value × PyState :=
  match resolveIntern st1 (env.mroOf c) with
  | none => ([], st1)
  | some (_, d) => writeStep env a st1 c d

/-- `_lazyclassproperty.__get__(None, c)` for attribute `a`: run the guard
(installing a fresh own dict when the resolved one is absent or inherited),
then look up / compute-and-store / return. -/
def lazyGet (env : LazyEnv) (a : String) (st : PyState) (c : Nat) :
    Value × PyState :=
  lazyGetAux env a (if needFresh env st c then bindFresh st c else st) c

/-- The state before any property read: no class owns an `_intern` dict. -/
def initState : PyState where
  heap := fun _ => none
  binding := fun _ => none
  nextId := 0

/-- A sequence of property reads (class, attribute), threading the state. -/
def runOps (env : LazyEnv) (ops : List (Nat × String)) (st : PyState) :
    PyState :=
  ops.foldl (fun s p => (lazyGet env p.2 s p.1).snd) st

/-- Well-formed lattice: every class heads its own mro
(`c.__mro__[0] is c`, true of every Python class). -/
def WFMro (env : LazyEnv) : Prop :=
  ∀ c, ∃ t, env.mroOf c = c :: t

/-- State invariant: every dict bound on a class exists on the heap and holds
only values computed for that very class; bound identities are below
`nextId`; and no dict object is bound on two distinct classes. -/
def Good (env : LazyEnv) (st : PyState) : Prop :=
  (∀ c d, st.binding c = some d →
    ∃ dict, st.heap d = some dict ∧
      ∀ a v, dlookup a dict = some v → v = env.compute a c) ∧
  (∀ c d, st.binding c = some d → d < st.nextId) ∧
  (∀ c c2 d, st.binding c = some d → st.binding c2 = some d → c = c2)

theorem good_init (env : LazyEnv) : Good env initState := by
  refine ⟨?_, ?_, ?_⟩
  · intro c d h
    simp [initState] at h
  · intro c d h
    simp [initState] at h
  · intro c c2 d h h2
    simp [initState] at h

theorem resolveIntern_eq_some {st : PyState} {l : List Nat} {o d : Nat}
    (h : resolveIntern st l = some (o, d)) :
    o ∈ l ∧ st.binding o = some d := by
  induction l with
  | nil => simp [resolveIntern] at h
  | cons a rest ih =>
      cases hb : st.binding a with
      | some d2 =>
          simp [resolveIntern, hb] at h
          obtain ⟨h1, h2⟩ := h
          subst h1
          subst h2
          exact ⟨List.mem_cons_self a rest, hb⟩
      | none =>
          simp only [resolveIntern, hb] at h
          obtain ⟨h1, h2⟩ := ih h
          exact ⟨List.mem_cons_of_mem a h1, h2⟩

theorem resolveIntern_cons_some {st : PyState} {c d : Nat} (t : List Nat)
    (h : st.binding c = some d) :
    resolveIntern st (c :: t) = some (c, d) := by
  simp [resolveIntern, h]

theorem resolve_after_ensure (env : LazyEnv) (st : PyState) (c : Nat)
    (hwf : WFMro env) :
    ∃ d,
      resolveIntern (if needFresh env st c then bindFresh st c else st)
          (env.mroOf c) = some (c, d) ∧
      (if needFresh env st c then bindFresh st c else st).binding c = some d := by
  obtain ⟨t, ht⟩ := hwf c
  by_cases hnf : needFresh env st c
  · refine ⟨st.nextId, ?_, ?_⟩ <;> simp [hnf, ht, bindFresh, resolveIntern]
  · simp only [hnf, if_false]
    rw [needFresh] at hnf
    cases hres : resolveIntern st (env.mroOf c) with
    | none => rw [hres] at hnf; simp at hnf
    | some od =>
        obtain ⟨o, d⟩ := od
        rw [hres] at hnf
        simp only [Bool.not_eq_true, List.any_eq_false] at hnf
        obtain ⟨ho, hbo⟩ := resolveIntern_eq_some hres
        have hoc : o = c := by
          by_contra hne
          rw [ht] at ho
          have hot : o ∈ (env.mroOf c).drop 1 := by
            rw [ht]
            simpa using (List.mem_cons.mp ho).resolve_left hne
          obtain ⟨t2, ht2⟩ := hwf o
          have hro : resolveIntern st (env.mroOf o) = some (o, d) := by
            rw [ht2]
            exact resolveIntern_cons_some t2 hbo
          have := hnf o hot
          rw [hro] at this
          simp at this
        subst hoc
        exact ⟨d, hres, hbo⟩

theorem good_bindFresh (env : LazyEnv) {st : PyState} (c : Nat)
    (hg : Good env st) : Good env (bindFresh st c) := by
  obtain ⟨h1, h2, h3⟩ := hg
  refine ⟨?_, ?_, ?_⟩
  · intro x d hx
    simp only [bindFresh] at hx ⊢
    by_cases hxc : x = c
    · subst hxc
      simp at hx
      subst hx
      refine ⟨[], by simp, ?_⟩
      intro a v hv
      simp [dlookup] at hv
    · rw [if_neg hxc] at hx
      obtain ⟨dict, hdict, hvals⟩ := h1 x d hx
      have hd : d ≠ st.nextId := Nat.ne_of_lt (h2 x d hx)
      exact ⟨dict, by rw [if_neg hd]; exact hdict, hvals⟩
  · intro x d hx
    simp only [bindFresh] at hx ⊢
    by_cases hxc : x = c
    · rw [if_pos hxc] at hx
      simp at hx
      omega
    · rw [if_neg hxc] at hx
      exact Nat.lt_succ_of_lt (h2 x d hx)
  · intro x y d hx hy
    simp only [bindFresh] at hx hy
    by_cases hxc : x = c <;> by_cases hyc : y = c
    · rw [hxc, hyc]
    · rw [if_pos hxc] at hx
      rw [if_neg hyc] at hy
      simp at hx
      subst hx
      exact absurd (h2 y st.nextId hy) (lt_irrefl _)
    · rw [if_neg hxc] at hx
      rw [if_pos hyc] at hy
      simp at hy
      subst hy
      exact absurd (h2 x st.nextId hx) (lt_irrefl _)
    · rw [if_neg hxc] at hx
      rw [if_neg hyc] at hy
      exact h3 x y d hx hy

theorem writeStep_spec (env : LazyEnv) (a : String) {st1 : PyState}
    (c d : Nat) (hg : Good env st1) (hbind : st1.binding c = some d) :
    (writeStep env a st1 c d).fst = env.compute a c ∧
    Good env (writeStep env a st1 c d).snd := by
  obtain ⟨hdicts, hlt, huniq⟩ := hg
  obtain ⟨dict, hdict, hvals⟩ := hdicts c d hbind
  have hget : (st1.heap d).getD [] = dict := by rw [hdict, Option.getD_some]
  simp only [writeStep, hget]
  cases hl : dlookup a dict with
  | some v => exact ⟨hvals a v hl, hdicts, hlt, huniq⟩
  | none =>
      refine ⟨rfl, ?_, hlt, huniq⟩
      intro x dx hx
      by_cases hdx : dx = d
      · subst hdx
        have hxc : x = c := huniq x c dx hx hbind
        subst hxc
        refine ⟨(a, env.compute a x) :: dict, by simp, ?_⟩
        intro a2 v2 hv2
        rw [dlookup_cons] at hv2
        by_cases ha2 : a = a2
        · rw [if_pos ha2] at hv2
          rw [← ha2]
          exact (Option.some_injective _ hv2).symm
        · rw [if_neg ha2] at hv2
          exact hvals a2 v2 hv2
      · obtain ⟨dict2, hdict2, hvals2⟩ := hdicts x dx hx
        exact ⟨dict2, by simp only [if_neg hdx]; exact hdict2, hvals2⟩

theorem lazyGet_spec (env : LazyEnv) (a : String) {st : PyState} (c : Nat)
    (hwf : WFMro env) (hg : Good env st) :
    (lazyGet env a st c).fst = env.compute a c ∧
    Good env (lazyGet env a st c).snd := by
  obtain ⟨d, hres, hbind⟩ := resolve_after_ensure env st c hwf
  have hg1 : Good env (if needFresh env st c then bindFresh st c else st) := by
    by_cases hnf : needFresh env st c
    · simpa [hnf] using good_bindFresh env c hg
    · simpa [hnf] using hg
  rw [lazyGet, lazyGetAux, hres]
  exact writeStep_spec env a c d hg1 hbind

theorem runOps_good (env : LazyEnv) (hwf : WFMro env)
    (ops : List (Nat × String)) {st : PyState} (hg : Good env st) :
    Good env (runOps env ops st) := by
  induction ops generalizing st with
  | nil => exact hg
  | cons p rest ih =>
      exact ih ((lazyGet_spec env p.2 p.1 hwf hg).2)

end LazyCache

/-- C8: cache isolation of `_lazyclassproperty`.  For any class lattice whose
mros start with the class itself, after ANY finite history of property reads
on any classes, reading attribute `a` on class `c` returns `fn(c)` — the
value computed for that exact class — never a sibling's or ancestor's cached
value; the guard replaces an absent or inherited (reference-identical to an
ancestor's) cache dict with a fresh empty one bound to `c` before the first
write. -/
theorem c8_cache_isolation (env : LazyCache.LazyEnv)
    (ops : List (Nat × String)) (c : Nat) (a : String)
    (hwf : LazyCache.WFMro env) :
    (LazyCache.lazyGet env a (LazyCache.runOps env ops LazyCache.initState)
        c).fst = env.compute a c :=
  (LazyCache.lazyGet_spec env a c hwf
    (LazyCache.runOps_good env hwf ops (LazyCache.good_init env))).1

/-- The sibling lattice of the claim: classes 1 and 2 both extend the common
ancestor 0; each property computation returns the reading class's identity,
so observing a sibling's cached value would be visible. -/
def envEx : LazyCache.LazyEnv where
  mroOf := fun c => if c = 0 then [0] else [c, 0]
  compute := fun _ c => [c]

/-- C8 witness: after sibling 1 has read and cached attribute `alphas`,
sibling 2 reading the same attribute observes the value computed for 2, not
1's cached value. -/
theorem c8_cache_isolation_witness :
    (LazyCache.lazyGet envEx "alphas"
        (LazyCache.runOps envEx [(1, "alphas")] LazyCache.initState) 2).fst =
      [2] :=
  c8_cache_isolation envEx [(1, "alphas")] 2 "alphas" (by
    intro c
    by_cases h : c = 0
    · exact ⟨[], by simp [envEx, h]⟩
    · exact ⟨[0], by simp [envEx, h]⟩)
